import Mathlib

/-!
# Musializer: the signal-processing pipeline of `src/plug.c`

A shallow embedding of the audio pipeline of `plug.c` (`fft`, `amp`,
`callback` and the analysis part of `plug_update`) together with theorems
about it.

Modelling conventions.

* `float` values are elements of a field `K` (exact arithmetic); the C
  arrays `in_raw`, `in_win`, `out_raw`, `out_log`, `out_smooth` are total
  functions `Nat → _` indexed by position, a store `a[i] = v` is
  `Function.update a i v`, and a pointer is a pair (array, offset).
* `float complex` is `Cx K`, a pair of a real and an imaginary part.
* The libm functions `cexp`, `cosf`, the natural logarithm and the constant
  `PI` (from `raylib.h`) are parameters.  `logf` returns minus infinity at
  zero; its result type is therefore `WithBot K`, with `⊥` for minus
  infinity.  The values of `amp` are thus finite or minus infinity: the
  overflow of `a*a + b*b` to plus infinity, which single precision has for
  coefficients of magnitude `2^64` and more, is outside the model, and the
  theorems about bucket values speak of spectra without it.
* `assert` failure is the result `none`.
* The loop variable `f` of the bucket walk is a `float` holding integral
  values; it is modelled as a rational, `ceilf` is the ceiling and the cast
  `(size_t) f` is the floor.  `step` is the exact `1.06`.  For the integral
  values `f < 4096` met with `N = 1 << 13`, the single-precision product
  `f * 1.06f` differs from the exact one by less than `0.001`, the exact
  product is an integer or at least `0.02` away from one, and in the first
  case the rounded product lies in `(53 f / 50 - 1, 53 f / 50]`: the ceiling
  taken by the program is the exact ceiling.
-/

namespace Musializer

/-! ## Complex numbers (`float complex`) -/

/-- A complex value with components in `K`. -/
structure Cx (K : Type) where
  re : K
  im : K
deriving DecidableEq

namespace Cx

variable {K : Type}

/-- Promotion of a real to a complex value. -/
def ofReal [Zero K] (x : K) : Cx K := ⟨x, 0⟩

/-- The imaginary unit `I`. -/
def I [Zero K] [One K] : Cx K := ⟨0, 1⟩

instance [Zero K] : Zero (Cx K) := ⟨⟨0, 0⟩⟩

instance [Add K] : Add (Cx K) := ⟨fun a b => ⟨a.re + b.re, a.im + b.im⟩⟩

instance [Sub K] : Sub (Cx K) := ⟨fun a b => ⟨a.re - b.re, a.im - b.im⟩⟩

instance [Add K] [Sub K] [Mul K] : Mul (Cx K) :=
  ⟨fun a b => ⟨a.re * b.re - a.im * b.im, a.re * b.im + a.im * b.re⟩⟩

/-- The complex number of Mathlib with the same components. -/
def toComplex (z : Cx ℝ) : ℂ := ⟨z.re, z.im⟩

end Cx

/-! ## `fft` (plug.c, lines 26-45) -/

section FFT

variable {K : Type} [Field K]

/-- One iteration of the combining loop of `fft` (lines 39-43), for loop
index `k`, on the output array `out` at offset `o`. -/
def butterfly (cexp : Cx K → Cx K) (PI : K) (o n : Nat) (out : Nat → Cx K) (k : Nat) :
    Nat → Cx K :=
  let t : K := (k : K) / (n : K)
  let v := cexp (Cx.ofReal (-2) * Cx.I * Cx.ofReal PI * Cx.ofReal t) * out (o + (k + n / 2))
  let e := out (o + k)
  Function.update (Function.update out (o + k) (e + v)) (o + (k + n / 2)) (e - v)

/-- The function `fft(in, stride, out, n)`.  The pointer `in` is the array
`inp` at offset `i0`, the pointer `out` is the array `out` at offset `o`.
The result is the output array after the call, or `none` when
`assert(n > 0)` fails. -/
def fft (cexp : Cx K → Cx K) (PI : K) (inp : Nat → K) (i0 stride : Nat)
    (out : Nat → Cx K) (o n : Nat) : Option (Nat → Cx K) :=
  if _h0 : n = 0 then none
  else if _h1 : n = 1 then some (Function.update out o (Cx.ofReal (inp i0)))
  else
    match fft cexp PI inp i0 (stride * 2) out o (n / 2) with
    | none => none
    | some out1 =>
      match fft cexp PI inp (i0 + stride) (stride * 2) out1 (o + n / 2) (n / 2) with
      | none => none
      | some out2 => some ((List.range (n / 2)).foldl (butterfly cexp PI o n) out2)
termination_by n
decreasing_by all_goals omega

end FFT

/-! ## `callback` (plug.c, lines 54-63) -/

section Callback

variable {α : Type}

/-- The library call `memmove(a + dst, a + src, count * sizeof(a[0]))` on one
array: the `count` cells from `src` on are copied to the cells from `dst` on,
as if through a temporary buffer. -/
def memmove (a : Nat → α) (dst src count : Nat) : Nat → α :=
  fun i => if dst ≤ i ∧ i < dst + count then a (src + (i - dst)) else a i

/-- The function `callback(bufferData, frames)` acting on the global array
`in_raw` of `N` samples.  `bufferData` is the array of stereo frames
`fs[i] = (fs[i][0], fs[i][1])`; the result is `in_raw` after the call. -/
def callback (N : Nat) (bufferData : Nat → α × α) (frames : Nat) (in_raw : Nat → α) :
    Nat → α :=
  (List.range frames).foldl
    (fun in_raw i => Function.update (memmove in_raw 0 1 (N - 1)) (N - 1) (bufferData i).1)
    in_raw

/-- The contents `a[0], …, a[N-1]` of an array of length `N`, in order. -/
def snapshot (N : Nat) (a : Nat → α) : List α := (List.range N).map a

end Callback

/-! ## `amp` (plug.c, lines 47-52) -/

section Amp

variable {K : Type} [LinearOrderedField K]

/-- The libm function `logf` on the non-negative reals, given the natural
logarithm `ln` on the positive reals: `logf(0)` is minus infinity (`⊥`). -/
def logf (ln : K → K) (x : K) : WithBot K :=
  if x = 0 then ⊥ else ((ln x : K) : WithBot K)

/-- The function `amp(z)`: `logf(a*a + b*b)` for `a`, `b` the real and the
imaginary part of `z`. -/
def amp (ln : K → K) (z : Cx K) : WithBot K :=
  let a := z.re
  let b := z.im
  logf ln (a * a + b * b)

end Amp

/-! ## The analysis part of `plug_update` (plug.c, lines 150-185) -/

/-- The constant `N` of plug.c, `1 << 13`.  The functions below take the
array length as a parameter named `N`; this is the value the program uses. -/
def N : Nat := 1 <<< 13

/-- The local `float step = 1.06` of `plug_update`. -/
def step : ℚ := 1.06

/-- The local `float lowf = 1.0f` of `plug_update`. -/
def lowf : ℚ := 1.0

section Analysis

variable {K : Type} [LinearOrderedField K]

/-- The Hann window loop (lines 152-156): `in_win[i] = in_raw[i] * hann` for
`i < N`. -/
def hannWindow (cosf : K → K) (PI : K) (N : Nat) (in_raw in_win : Nat → K) : Nat → K :=
  (List.range N).foldl
    (fun in_win (i : Nat) =>
      let t : K := (i : K) / ((N - 1 : Nat) : K)
      let hann : K := 0.5 - 0.5 * cosf (2 * PI * t)
      Function.update in_win i (in_raw i * hann))
    in_win

/-- The statement `if (b > a) a = b;` for a finite `a` and a `b` that is
finite or minus infinity: the comparison is false when `b` is minus
infinity. -/
def assignIfGreater (a : K) (b : WithBot K) : K :=
  match b with
  | none => a
  | some b => if b > a then b else a

/-- The inner loop of the binning (lines 169-172), from the bin index `q` on,
with the running maximum `a`: the value of `a` when the loop is left. -/
def bucketLoop (ln : K → K) (N : Nat) (out_raw : Nat → Cx K) (f1 : ℚ) (q : Nat) (a : K) : K :=
  if q < N / 2 ∧ q < ⌊f1⌋₊ then
    bucketLoop ln N out_raw f1 (q + 1) (assignIfGreater a (amp ln (out_raw q)))
  else a
termination_by N / 2 - q
decreasing_by omega

/-- The variables of the binning loop.  `spans` is a ghost variable: it
records the pair `(f, f1)` of every iteration and is read by no statement. -/
structure BinState (K : Type) where
  f : ℚ
  m : Nat
  max_amp : K
  out_log : Nat → K
  spans : List (ℚ × ℚ)

/-- The outer loop of the binning (lines 166-175), run for at most `fuel`
iterations: the state when the loop is left, `none` when the fuel is used up
before that. -/
def binLoop (ln : K → K) (N : Nat) (out_raw : Nat → Cx K) :
    Nat → BinState K → Option (BinState K)
  | fuel, s =>
    if ⌊s.f⌋₊ < N / 2 then
      match fuel with
      | 0 => none
      | fuel + 1 =>
        let f1 : ℚ := (⌈s.f * step⌉ : ℤ)
        let a : K := bucketLoop ln N out_raw f1 ⌊s.f⌋₊ 0
        binLoop ln N out_raw fuel
          { f := (⌈s.f * step⌉ : ℤ)
            m := s.m + 1
            max_amp := if s.max_amp < a then a else s.max_amp
            out_log := Function.update s.out_log s.m a
            spans := s.spans ++ [(s.f, f1)] }
    else some s

/-- The binning of lines 162-175, "squash into the logarithmic scale": the
loop started with `f = lowf`, `m = 0`, `max_amp = 1.0f`.  The loop runs at
most `N / 2` times (`logBin_spec`), which is the fuel given. -/
def logBin (ln : K → K) (N : Nat) (out_raw : Nat → Cx K) (out_log : Nat → K) :
    Option (BinState K) :=
  binLoop ln N out_raw (N / 2)
    { f := lowf, m := 0, max_amp := 1, out_log := out_log, spans := [] }

/-- The normalisation loop (lines 178-180): `out_log[i] /= max_amp` for
`i < m`. -/
def normalize (m : Nat) (max_amp : K) (out_log : Nat → K) : Nat → K :=
  (List.range m).foldl (fun out_log i => Function.update out_log i (out_log i / max_amp))
    out_log

/-- The local `float smoothness = 8` of `plug_update`. -/
def smoothness : K := 8

/-- The smoothing loop (lines 183-185):
`out_smooth[i] += (out_log[i] - out_smooth[i])*smoothness*dt` for `i < m`. -/
def smooth (m : Nat) (dt : K) (out_log out_smooth : Nat → K) : Nat → K :=
  (List.range m).foldl
    (fun out_smooth i =>
      Function.update out_smooth i
        (out_smooth i + (out_log i - out_smooth i) * smoothness * dt))
    out_smooth

/-- Successive frames of the smoothing loop on the same curve `out_log`, one
frame per frame time of the list: the array `out_smooth` before the first
frame and after every frame, in order. -/
def smoothFrames (m : Nat) (out_log : Nat → K) : List K → (Nat → K) → List (Nat → K)
  | [], out_smooth => [out_smooth]
  | dt :: dts, out_smooth =>
    out_smooth :: smoothFrames m out_log dts (smooth m dt out_log out_smooth)

/-- The global arrays of plug.c and the bucket count `m` of the last frame. -/
structure Globals (K : Type) where
  in_raw : Nat → K
  in_win : Nat → K
  out_raw : Nat → Cx K
  out_log : Nat → K
  out_smooth : Nat → K
  m : Nat

/-- The analysis part of `plug_update` (lines 150-185, the branch taken when
music is ready, without the drawing): Hann window, `fft`, binning,
normalisation, smoothing.  `dt` is the frame time `GetFrameTime()`. -/
def plug_update (cexp : Cx K → Cx K) (cosf ln : K → K) (PI : K) (N : Nat) (dt : K)
    (g : Globals K) : Option (Globals K) :=
  let in_win := hannWindow cosf PI N g.in_raw g.in_win
  match fft cexp PI in_win 0 1 g.out_raw 0 N with
  | none => none
  | some out_raw =>
    match logBin ln N out_raw g.out_log with
    | none => none
    | some r =>
      let out_log := normalize r.m r.max_amp r.out_log
      let out_smooth := smooth r.m dt out_log g.out_smooth
      some { in_raw := g.in_raw, in_win := in_win, out_raw := out_raw, out_log := out_log,
             out_smooth := out_smooth, m := r.m }

end Analysis

/-! ## Reference description of the bucket walk -/

/-- The successor of the integral value `n` in the bucket walk: the ceiling
of `n * 53 / 50` (see `ceil_step`). -/
def nextf (n : Nat) : Nat := (53 * n + 49) / 50

/-- The spans `(f, f1)` visited by the bucket walk from `f = n` on, as
natural numbers, for at most `fuel` buckets. -/
def bucketWalk (N : Nat) : Nat → Nat → List (Nat × Nat)
  | 0, _ => []
  | fuel + 1, n => if n < N / 2 then (n, nextf n) :: bucketWalk N fuel (nextf n) else []

/-- The bin indices of the span `(f, f1)` of a bucket: `f ≤ q < f1`, clipped
to `q < N / 2`. -/
def spanBins (N : Nat) (sp : ℚ × ℚ) : Finset Nat :=
  Finset.Ico ⌊sp.1⌋₊ (min ⌊sp.2⌋₊ (N / 2))

/-! ## Theorems about `fft` -/

section FFTProofs

open Finset

/-- The sum over `range (2 * h)` splits into the even and the odd indices. -/
theorem sum_range_even_odd {M : Type} [AddCommMonoid M] (f : ℕ → M) (h : ℕ) :
    ∑ t in range (2 * h), f t = ∑ t in range h, f (2 * t) + ∑ t in range h, f (2 * t + 1) := by
  induction h with
  | zero => simp
  | succ h ih =>
    rw [show 2 * (h + 1) = 2 * h + 1 + 1 by ring, sum_range_succ, sum_range_succ, ih,
      sum_range_succ, sum_range_succ]
    abel

section Roots

variable (W : ℕ → ℕ → ℂ)
  (hW : ∀ n x, W n x = Complex.exp (-2 * Real.pi * Complex.I * x / n))

include hW

theorem W_add (n x y : ℕ) : W n (x + y) = W n x * W n y := by
  simp only [hW]
  rw [← Complex.exp_add]; congr 1; push_cast; ring

theorem W_double (h x : ℕ) (hh : 0 < h) : W (2 * h) (2 * x) = W h x := by
  simp only [hW]
  congr 1
  have : (h : ℂ) ≠ 0 := by exact_mod_cast hh.ne'
  push_cast; field_simp; ring

theorem W_self_mul (n x : ℕ) (hn : 0 < n) : W n (n * x) = 1 := by
  simp only [hW]
  have : (n : ℂ) ≠ 0 := by exact_mod_cast hn.ne'
  have := Complex.exp_int_mul_two_pi_mul_I (-(x : ℤ))
  rw [← this]; congr 1; push_cast; field_simp; ring

theorem W_half (h : ℕ) (hh : 0 < h) : W (2 * h) h = -1 := by
  simp only [hW]
  have hne : (h : ℂ) ≠ 0 := by exact_mod_cast hh.ne'
  have : -2 * (Real.pi : ℂ) * Complex.I * h / ((2 * h : ℕ) : ℂ) = -(Real.pi * Complex.I) := by
    push_cast; field_simp; ring
  rw [this, Complex.exp_neg, Complex.exp_pi_mul_I]; norm_num

/-- Decimation in time, lower half of the spectrum. -/
theorem dft_split_lo (a : ℕ → ℂ) (h j : ℕ) (hh : 0 < h) :
    ∑ t in range (2 * h), a t * W (2 * h) (j * t) =
      ∑ t in range h, a (2 * t) * W h (j * t) +
        W (2 * h) j * ∑ t in range h, a (2 * t + 1) * W h (j * t) := by
  rw [sum_range_even_odd, Finset.mul_sum]
  congr 1
  · refine Finset.sum_congr rfl fun t _ => ?_
    rw [show j * (2 * t) = 2 * (j * t) by ring, W_double W hW _ _ hh]
  · refine Finset.sum_congr rfl fun t _ => ?_
    rw [show j * (2 * t + 1) = 2 * (j * t) + j by ring, W_add W hW, W_double W hW _ _ hh]
    ring

/-- Decimation in time, upper half of the spectrum. -/
theorem dft_split_hi (a : ℕ → ℂ) (h j : ℕ) (hh : 0 < h) :
    ∑ t in range (2 * h), a t * W (2 * h) ((j + h) * t) =
      ∑ t in range h, a (2 * t) * W h (j * t) -
        W (2 * h) j * ∑ t in range h, a (2 * t + 1) * W h (j * t) := by
  rw [sum_range_even_odd, Finset.mul_sum, sub_eq_add_neg, ← Finset.sum_neg_distrib]
  congr 1
  · refine Finset.sum_congr rfl fun t _ => ?_
    rw [show (j + h) * (2 * t) = 2 * (j * t) + 2 * h * t by ring, W_add W hW,
      W_double W hW _ _ hh, W_self_mul W hW _ _ (by omega), mul_one]
  · refine Finset.sum_congr rfl fun t _ => ?_
    rw [show (j + h) * (2 * t + 1) = 2 * (j * t) + j + 2 * h * t + h by ring, W_add W hW,
      W_add W hW, W_add W hW, W_double W hW _ _ hh, W_self_mul W hW _ _ (by omega),
      W_half W hW _ hh]
    ring

end Roots

namespace Cx

theorem toComplex_add (a b : Cx ℝ) : (a + b).toComplex = a.toComplex + b.toComplex :=
  Complex.ext rfl rfl

theorem toComplex_sub (a b : Cx ℝ) : (a - b).toComplex = a.toComplex - b.toComplex :=
  Complex.ext rfl rfl

theorem toComplex_mul (a b : Cx ℝ) : (a * b).toComplex = a.toComplex * b.toComplex :=
  Complex.ext rfl rfl

theorem toComplex_ofReal (x : ℝ) : (Cx.ofReal x).toComplex = (x : ℂ) :=
  Complex.ext rfl rfl

theorem toComplex_I : (Cx.I : Cx ℝ).toComplex = Complex.I :=
  Complex.ext rfl rfl

end Cx

variable {K : Type} [Field K]

/-- The combining loop of `fft` run for the first `m` indices: the two
halves are combined at the indices below `m`, everything else is untouched. -/
theorem butterfly_loop (cexp : Cx K → Cx K) (PI : K) (o n : Nat) (out : Nat → Cx K) (m : Nat)
    (hm : m ≤ n / 2) :
    (∀ k, k < m →
      (List.range m).foldl (butterfly cexp PI o n) out (o + k) =
          out (o + k) + cexp (Cx.ofReal (-2) * Cx.I * Cx.ofReal PI * Cx.ofReal ((k : K) / (n : K)))
            * out (o + (k + n / 2)) ∧
      (List.range m).foldl (butterfly cexp PI o n) out (o + (k + n / 2)) =
          out (o + k) - cexp (Cx.ofReal (-2) * Cx.I * Cx.ofReal PI * Cx.ofReal ((k : K) / (n : K)))
            * out (o + (k + n / 2))) ∧
    (∀ i, (∀ k, k < m → i ≠ o + k ∧ i ≠ o + (k + n / 2)) →
      (List.range m).foldl (butterfly cexp PI o n) out i = out i) := by
  induction m with
  | zero => simp
  | succ m ih =>
    obtain ⟨ih1, ih2⟩ := ih (by omega)
    have e1 : (List.range m).foldl (butterfly cexp PI o n) out (o + m) = out (o + m) :=
      ih2 _ fun k hk => ⟨by omega, by omega⟩
    have e2 : (List.range m).foldl (butterfly cexp PI o n) out (o + (m + n / 2))
        = out (o + (m + n / 2)) :=
      ih2 _ fun k hk => ⟨by omega, by omega⟩
    rw [List.range_succ, List.foldl_append]
    simp only [List.foldl_cons, List.foldl_nil]
    generalize List.foldl (butterfly cexp PI o n) out (List.range m) = G at ih1 ih2 e1 e2 ⊢
    refine ⟨fun k hk => ?_, fun i hi => ?_⟩
    · rcases Nat.lt_succ_iff_lt_or_eq.mp hk with hlt | rfl
      · obtain ⟨a1, a2⟩ := ih1 k hlt
        constructor
        · rw [← a1]; unfold butterfly
          rw [Function.update_noteq (by omega), Function.update_noteq (by omega)]
        · rw [← a2]; unfold butterfly
          rw [Function.update_noteq (by omega), Function.update_noteq (by omega)]
      · constructor
        · unfold butterfly
          rw [Function.update_noteq (by omega), Function.update_same, e1, e2]
        · unfold butterfly
          rw [Function.update_same, e1, e2]
    · have h1 := hi m (Nat.lt_succ_self m)
      unfold butterfly
      rw [Function.update_noteq h1.2, Function.update_noteq h1.1]
      exact ih2 i fun k hk => hi k (Nat.lt_succ_of_lt hk)

/-- Unfolding of `fft` at `n = 1`. -/
theorem fft_one (cexp : Cx K → Cx K) (PI : K) (inp : Nat → K) (i0 stride : Nat)
    (out : Nat → Cx K) (o : Nat) :
    fft cexp PI inp i0 stride out o 1 = some (Function.update out o (Cx.ofReal (inp i0))) := by
  rw [fft]; simp

/-- Unfolding of `fft` at `n ≥ 2`: two recursive calls, then the combining loop. -/
theorem fft_rec (cexp : Cx K → Cx K) (PI : K) (inp : Nat → K) (i0 stride : Nat)
    (out : Nat → Cx K) (o n : Nat) (hn : 2 ≤ n) :
    fft cexp PI inp i0 stride out o n =
      (fft cexp PI inp i0 (stride * 2) out o (n / 2)).bind fun out1 =>
        (fft cexp PI inp (i0 + stride) (stride * 2) out1 (o + n / 2) (n / 2)).bind fun out2 =>
          some ((List.range (n / 2)).foldl (butterfly cexp PI o n) out2) := by
  rw [fft, dif_neg (by omega), dif_neg (by omega)]
  cases fft cexp PI inp i0 (stride * 2) out o (n / 2) with
  | none => rfl
  | some out1 =>
    simp only [Option.some_bind]
    cases fft cexp PI inp (i0 + stride) (stride * 2) out1 (o + n / 2) (n / 2) with
    | none => rfl
    | some out2 => rfl

/-- The only failure of `fft` is the assertion `n > 0`. -/
theorem fft_isSome (cexp : Cx K → Cx K) (PI : K) (inp : Nat → K) (n : Nat) :
    ∀ (i0 stride : Nat) (out : Nat → Cx K) (o : Nat),
      (fft cexp PI inp i0 stride out o n).isSome = decide (0 < n) := by
  induction n using Nat.strong_induction_on with
  | _ n ih =>
    intro i0 stride out o
    by_cases h0 : n = 0
    · subst h0; rw [fft]; simp
    by_cases h1 : n = 1
    · subst h1; rw [fft_one]; simp
    have hlt : n / 2 < n := by omega
    have hpos : 0 < n / 2 := by omega
    rw [fft_rec _ _ _ _ _ _ _ _ (by omega)]
    have a1 := ih (n / 2) hlt i0 (stride * 2) out o
    cases hc1 : fft cexp PI inp i0 (stride * 2) out o (n / 2) with
    | none => rw [hc1] at a1; simp [hpos] at a1
    | some out1 =>
      have a2 := ih (n / 2) hlt (i0 + stride) (stride * 2) out1 (o + n / 2)
      simp only [Option.some_bind]
      cases hc2 : fft cexp PI inp (i0 + stride) (stride * 2) out1 (o + n / 2) (n / 2) with
      | none => rw [hc2] at a2; simp [hpos] at a2
      | some out2 => simp [Nat.pos_of_ne_zero h0]

/-- The call `fft(in, stride, out, n)` writes only the cells `out[0 .. n)`. -/
theorem fft_frame (cexp : Cx K → Cx K) (PI : K) (inp : Nat → K) (n : Nat) :
    ∀ (i0 stride : Nat) (out : Nat → Cx K) (o : Nat) (out' : Nat → Cx K),
      fft cexp PI inp i0 stride out o n = some out' →
      ∀ i, i < o ∨ o + n ≤ i → out' i = out i := by
  induction n using Nat.strong_induction_on with
  | _ n ih =>
    intro i0 stride out o out' h i hi
    by_cases h0 : n = 0
    · subst h0; rw [fft] at h; simp at h
    by_cases h1 : n = 1
    · subst h1
      rw [fft_one] at h
      rw [← Option.some.inj h, Function.update_noteq (by omega)]
    rw [fft_rec _ _ _ _ _ _ _ _ (by omega)] at h
    cases hc1 : fft cexp PI inp i0 (stride * 2) out o (n / 2) with
    | none => rw [hc1] at h; simp at h
    | some out1 =>
      rw [hc1, Option.some_bind] at h
      cases hc2 : fft cexp PI inp (i0 + stride) (stride * 2) out1 (o + n / 2) (n / 2) with
      | none => rw [hc2] at h; simp at h
      | some out2 =>
        rw [hc2, Option.some_bind] at h
        rw [← Option.some.inj h,
          (butterfly_loop cexp PI o n out2 (n / 2) le_rfl).2 i
            (fun k hk => ⟨by omega, by omega⟩),
          ih (n / 2) (by omega) _ _ _ _ _ hc2 i (by omega),
          ih (n / 2) (by omega) _ _ _ _ _ hc1 i (by omega)]

theorem Cx.mul_zero' (z : Cx K) : z * (0 : Cx K) = 0 := by
  show (⟨z.re * 0 - z.im * 0, z.re * 0 + z.im * 0⟩ : Cx K) = ⟨0, 0⟩
  simp

theorem Cx.zero_add_zero : (0 : Cx K) + 0 = 0 := by
  show (⟨0 + 0, 0 + 0⟩ : Cx K) = ⟨0, 0⟩
  simp

theorem Cx.zero_sub_zero : (0 : Cx K) - 0 = 0 := by
  show (⟨0 - 0, 0 - 0⟩ : Cx K) = ⟨0, 0⟩
  simp

/-- On a power of two, `fft` of an all-zero strided input is all zero. -/
theorem fft_zero (cexp : Cx K → Cx K) (PI : K) (inp : Nat → K) (k : Nat) :
    ∀ (i0 stride : Nat) (out : Nat → Cx K) (o : Nat),
      (∀ t, t < 2 ^ k → inp (i0 + t * stride) = 0) →
      ∃ out', fft cexp PI inp i0 stride out o (2 ^ k) = some out' ∧
        ∀ j, j < 2 ^ k → out' (o + j) = 0 := by
  induction k with
  | zero =>
    intro i0 stride out o hz
    refine ⟨_, fft_one _ _ _ _ _ _ _, fun j hj => ?_⟩
    obtain rfl : j = 0 := by omega
    have := hz 0 (by norm_num)
    simp only [Nat.zero_mul, Nat.add_zero] at this
    rw [Nat.add_zero, Function.update_same, this]
    rfl
  | succ k ih =>
    intro i0 stride out o hz
    have hpos : 0 < 2 ^ k := by positivity
    have hn : 2 ^ (k + 1) = 2 * 2 ^ k := by ring
    have hhalf : 2 ^ (k + 1) / 2 = 2 ^ k := by omega
    obtain ⟨out1, c1, v1⟩ := ih i0 (stride * 2) out o (fun t ht => by
      have := hz (2 * t) (by omega)
      rwa [show 2 * t * stride = t * (stride * 2) by ring] at this)
    obtain ⟨out2, c2, v2⟩ := ih (i0 + stride) (stride * 2) out1 (o + 2 ^ k) (fun t ht => by
      have := hz (2 * t + 1) (by omega)
      rwa [show i0 + (2 * t + 1) * stride = i0 + stride + t * (stride * 2) by ring] at this)
    have f2 := fft_frame cexp PI inp (2 ^ k) _ _ _ _ _ c2
    obtain ⟨b1, -⟩ := butterfly_loop cexp PI o (2 ^ (k + 1)) out2 (2 ^ (k + 1) / 2) le_rfl
    rw [hhalf] at b1
    have hlo : ∀ j, j < 2 ^ k → out2 (o + j) = 0 := fun j hj => by
      rw [f2 _ (Or.inl (by omega)), v1 j hj]
    have hhi : ∀ j, j < 2 ^ k → out2 (o + (j + 2 ^ k)) = 0 := fun j hj => by
      rw [show o + (j + 2 ^ k) = o + 2 ^ k + j by omega, v2 j hj]
    refine ⟨(List.range (2 ^ k)).foldl (butterfly cexp PI o (2 ^ (k + 1))) out2, ?_,
      fun j hj => ?_⟩
    · rw [fft_rec _ _ _ _ _ _ _ _ (by omega), hhalf, c1, Option.some_bind, c2, Option.some_bind]
    · by_cases hj2 : j < 2 ^ k
      · rw [(b1 j hj2).1, hlo j hj2, hhi j hj2, Cx.mul_zero', Cx.zero_add_zero]
      · obtain ⟨j', rfl⟩ : ∃ j', j = j' + 2 ^ k := ⟨j - 2 ^ k, by omega⟩
        have hj' : j' < 2 ^ k := by omega
        rw [(b1 j' hj').2, hlo j' hj', hhi j' hj', Cx.mul_zero', Cx.zero_sub_zero]

/-- The twiddle factor computed by `fft`, with the exact exponential and
the exact `π`, is the `k`-th power of the principal `n`-th root of unity. -/
theorem toComplex_twiddle (cexp : Cx ℝ → Cx ℝ) (PI : ℝ) (hPI : PI = Real.pi)
    (hexp : ∀ z, (cexp z).toComplex = Complex.exp z.toComplex) (k n : Nat) :
    (cexp (Cx.ofReal (-2) * Cx.I * Cx.ofReal PI * Cx.ofReal ((k : ℝ) / (n : ℝ)))).toComplex =
      Complex.exp (-2 * Real.pi * Complex.I * k / n) := by
  rw [hexp, Cx.toComplex_mul, Cx.toComplex_mul, Cx.toComplex_mul, Cx.toComplex_ofReal,
    Cx.toComplex_ofReal, Cx.toComplex_ofReal, Cx.toComplex_I, hPI]
  congr 1; push_cast; ring

/-- Correctness of `fft` on a power of two, with the frame condition that
the recursion needs: the output cells `o .. o + 2^k - 1` hold the discrete
Fourier transform of the strided input, every other cell is unchanged. -/
theorem fft_spec (cexp : Cx ℝ → Cx ℝ) (PI : ℝ) (hPI : PI = Real.pi)
    (hexp : ∀ z, (cexp z).toComplex = Complex.exp z.toComplex)
    (W : ℕ → ℕ → ℂ) (hW : ∀ n x, W n x = Complex.exp (-2 * Real.pi * Complex.I * x / n))
    (inp : Nat → ℝ) (k : Nat) :
    ∀ (i0 stride : Nat) (out : Nat → Cx ℝ) (o : Nat),
      ∃ out', fft cexp PI inp i0 stride out o (2 ^ k) = some out' ∧
        (∀ j, j < 2 ^ k → (out' (o + j)).toComplex =
          ∑ t in range (2 ^ k), (inp (i0 + t * stride) : ℂ) * W (2 ^ k) (j * t)) ∧
        (∀ i, i < o ∨ o + 2 ^ k ≤ i → out' i = out i) := by
  induction k with
  | zero =>
    intro i0 stride out o
    refine ⟨_, fft_one _ _ _ _ _ _ _, fun j hj => ?_, fun i hi => ?_⟩
    · obtain rfl : j = 0 := by omega
      simp [hW, Cx.toComplex_ofReal]
    · rw [Function.update_noteq (by omega)]
  | succ k ih =>
    intro i0 stride out o
    have hpos : 0 < 2 ^ k := by positivity
    have hn : 2 ^ (k + 1) = 2 * 2 ^ k := by ring
    have hhalf : 2 ^ (k + 1) / 2 = 2 ^ k := by omega
    obtain ⟨out1, c1, v1, f1⟩ := ih i0 (stride * 2) out o
    obtain ⟨out2, c2, v2, f2⟩ := ih (i0 + stride) (stride * 2) out1 (o + 2 ^ k)
    obtain ⟨b1, b2⟩ := butterfly_loop cexp PI o (2 ^ (k + 1)) out2 (2 ^ (k + 1) / 2) le_rfl
    rw [hhalf] at b1 b2
    refine ⟨(List.range (2 ^ k)).foldl (butterfly cexp PI o (2 ^ (k + 1))) out2, ?_,
      fun j hj => ?_, fun i hi => ?_⟩
    · rw [fft_rec _ _ _ _ _ _ _ _ (by omega), hhalf, c1, Option.some_bind, c2, Option.some_bind]
    · have hE : ∀ j, j < 2 ^ k → (out2 (o + j)).toComplex =
          ∑ t in range (2 ^ k), (inp (i0 + 2 * t * stride) : ℂ) * W (2 ^ k) (j * t) := by
        intro j hj
        rw [f2 _ (Or.inl (by omega)), v1 j hj]
        refine Finset.sum_congr rfl fun t _ => ?_
        rw [show t * (stride * 2) = 2 * t * stride by ring]
      have hO : ∀ j, j < 2 ^ k → (out2 (o + (j + 2 ^ k))).toComplex =
          ∑ t in range (2 ^ k), (inp (i0 + (2 * t + 1) * stride) : ℂ) * W (2 ^ k) (j * t) := by
        intro j hj
        rw [show o + (j + 2 ^ k) = o + 2 ^ k + j by omega, v2 j hj]
        refine Finset.sum_congr rfl fun t _ => ?_
        rw [show i0 + stride + t * (stride * 2) = i0 + (2 * t + 1) * stride by ring]
      have htw : ∀ j : ℕ, (cexp (Cx.ofReal (-2) * Cx.I * Cx.ofReal PI *
          Cx.ofReal ((j : ℝ) / ((2 ^ (k + 1) : ℕ) : ℝ)))).toComplex = W (2 * 2 ^ k) j := by
        intro j
        rw [toComplex_twiddle cexp PI hPI hexp, hW, hn]
      by_cases hlo : j < 2 ^ k
      · rw [(b1 j hlo).1, Cx.toComplex_add, Cx.toComplex_mul, htw, hE j hlo, hO j hlo, hn]
        exact (dft_split_lo W hW (fun t => (inp (i0 + t * stride) : ℂ)) (2 ^ k) j hpos).symm
      · obtain ⟨j', rfl⟩ : ∃ j', j = j' + 2 ^ k := ⟨j - 2 ^ k, by omega⟩
        have hj' : j' < 2 ^ k := by omega
        rw [(b1 j' hj').2, Cx.toComplex_sub, Cx.toComplex_mul, htw, hE j' hj', hO j' hj', hn]
        exact (dft_split_hi W hW (fun t => (inp (i0 + t * stride) : ℂ)) (2 ^ k) j' hpos).symm
    · rw [b2 i (fun k' hk' => ⟨by omega, by omega⟩), f2 i (by omega), f1 i (by omega)]

/-- Claim C1.  With the exact complex exponential and the exact `π`, for
every `n` that is a power of two, every stride (in particular every stride
`≥ 1`), every real input array and every pair of pointers (`in` = `inp` at
offset `i0`, `out` at offset `o`), `fft(in, stride, out, n)` returns and
leaves in `out[j]`, for every `j < n`, the discrete Fourier transform
`∑ t < n, in[t * stride] * exp(-2πi·j·t/n)` of the strided input; `out[0]`
is the plain sum of the samples; cells outside `out[0 .. n)` are unchanged. -/
theorem fft_computes_dft (cexp : Cx ℝ → Cx ℝ) (PI : ℝ) (hPI : PI = Real.pi)
    (hexp : ∀ z, (cexp z).toComplex = Complex.exp z.toComplex)
    (n k : Nat) (hn : n = 2 ^ k) (stride : Nat) (_hs : 1 ≤ stride)
    (inp : Nat → ℝ) (i0 : Nat) (out : Nat → Cx ℝ) (o : Nat) :
    ∃ out', fft cexp PI inp i0 stride out o n = some out' ∧
      (∀ j, j < n → (out' (o + j)).toComplex =
        ∑ t in range n, (inp (i0 + t * stride) : ℂ) *
          Complex.exp (-2 * Real.pi * Complex.I * j * t / n)) ∧
      (out' o).toComplex = ∑ t in range n, (inp (i0 + t * stride) : ℂ) ∧
      (∀ i, i < o ∨ o + n ≤ i → out' i = out i) := by
  subst hn
  obtain ⟨out', c, v, f⟩ := fft_spec cexp PI hPI hexp
    (fun n x => Complex.exp (-2 * Real.pi * Complex.I * x / n)) (fun _ _ => rfl)
    inp k i0 stride out o
  refine ⟨out', c, fun j hj => ?_, ?_, f⟩
  · rw [v j hj]
    refine Finset.sum_congr rfl fun t _ => ?_
    congr 2; push_cast; ring
  · have h0 := v 0 (by positivity)
    rw [Nat.add_zero] at h0
    rw [h0]
    refine Finset.sum_congr rfl fun t _ => ?_
    simp

/-- Witness of `fft_computes_dft`: the exact libm on the reals, `n = 4 = 2^2`,
stride 1, the input `in[i] = i`. -/
theorem fft_computes_dft_witness :
    (Real.pi = Real.pi) ∧
    (∀ z : Cx ℝ, (Cx.mk (Complex.exp z.toComplex).re (Complex.exp z.toComplex).im).toComplex
      = Complex.exp z.toComplex) ∧
    (4 = 2 ^ 2) ∧ (1 ≤ 1) ∧
    ∃ out', fft (fun z => Cx.mk (Complex.exp z.toComplex).re (Complex.exp z.toComplex).im)
        Real.pi (fun i => (i : ℝ)) 0 1 (fun _ => 0) 0 4 = some out' ∧
      (∀ j, j < 4 → (out' (0 + j)).toComplex =
        ∑ t in range 4, (((fun i : ℕ => (i : ℝ)) (0 + t * 1) : ℝ) : ℂ) *
          Complex.exp (-2 * Real.pi * Complex.I * j * t / (4 : ℕ))) ∧
      (out' 0).toComplex = ∑ t in range 4, (((fun i : ℕ => (i : ℝ)) (0 + t * 1) : ℝ) : ℂ) ∧
      (∀ i, i < 0 ∨ 0 + 4 ≤ i → out' i = (fun _ => (0 : Cx ℝ)) i) :=
  ⟨rfl, fun _ => rfl, by norm_num, le_rfl,
    fft_computes_dft
      (fun z => Cx.mk (Complex.exp z.toComplex).re (Complex.exp z.toComplex).im)
      Real.pi rfl (fun _ => rfl) 4 2 (by norm_num) 1 le_rfl
      (fun i => (i : ℝ)) 0 (fun _ => 0) 0⟩

/-- Claim C2, as the code has it.  `fft` checks only `assert(n > 0)`: it
fails exactly when `n = 0`, and for every `n > 0`, a power of two or not, it
returns an output array. -/
theorem fft_fails_iff_zero (cexp : Cx K → Cx K) (PI : K) (inp : Nat → K) (i0 stride : Nat)
    (out : Nat → Cx K) (o n : Nat) :
    (fft cexp PI inp i0 stride out o n = none ↔ n = 0) ∧
      (0 < n ↔ ∃ out', fft cexp PI inp i0 stride out o n = some out') := by
  have h := fft_isSome cexp PI inp n i0 stride out o
  cases hc : fft cexp PI inp i0 stride out o n with
  | none =>
    rw [hc] at h
    have : n = 0 := by simpa using h.symm
    simp [this]
  | some out' =>
    rw [hc] at h
    have : 0 < n := by simpa using h.symm
    simp [this, this.ne']

/-- Claim C2 fails as stated: `n = 3` is positive and not a power of two, and
`fft(in, 1, out, 3)` returns an output array instead of failing. -/
theorem fft_three_returns :
    0 < 3 ∧ (¬ ∃ k : ℕ, 3 = 2 ^ k) ∧
      fft (fun z : Cx ℚ => z) (355 / 113) (fun i => (i : ℚ)) 0 1 (fun _ => 0) 0 3 ≠ none := by
  refine ⟨by decide, ?_, ?_⟩
  · rintro ⟨k, hk⟩
    cases k with
    | zero => simp at hk
    | succ k => rw [pow_succ] at hk; omega
  · rw [Ne, ← Option.isSome_iff_ne_none.not_left, fft_isSome]
    decide

end FFTProofs

/-! ## Theorems about `callback` -/

section CallbackProofs

variable {α : Type}

/-- Cell `i` of `in_raw` after `callback` with `k` frames: the old cell
`i + k` while that is inside the buffer, else the first channel of frame
`i + k - N`. -/
theorem callback_apply (N : Nat) (bufferData : Nat → α × α) (k : Nat) (in_raw : Nat → α)
    (i : Nat) (hi : i < N) :
    callback N bufferData k in_raw i =
      if i + k < N then in_raw (i + k) else (bufferData (i + k - N)).1 := by
  induction k generalizing i with
  | zero => simp [callback, hi]
  | succ k ih =>
    unfold callback at ih ⊢
    rw [List.range_succ, List.foldl_append]
    simp only [List.foldl_cons, List.foldl_nil]
    generalize List.foldl (fun in_raw i =>
      Function.update (memmove in_raw 0 1 (N - 1)) (N - 1) (bufferData i).1) in_raw
      (List.range k) = G at ih ⊢
    by_cases hl : i = N - 1
    · subst hl
      rw [Function.update_same, if_neg (by omega)]
      congr 2; omega
    · rw [Function.update_noteq hl]
      unfold memmove
      rw [if_pos (by omega), ih (1 + (i - 0)) (by omega)]
      have e : 1 + (i - 0) + k = i + (k + 1) := by omega
      rw [e]

/-- Claim C3.  After `callback(bufferData, k)` the buffer `in_raw` still has
`N` samples and is the last `N` elements of the old buffer followed by the
first-channel samples of the `k` frames in arrival order; samples that
survive moved left by `k`; the second channel of the frames has no
influence. -/
theorem callback_evicts_oldest (N : Nat) (bufferData : Nat → α × α) (k : Nat)
    (in_raw : Nat → α) :
    (snapshot N (callback N bufferData k in_raw)).length = N ∧
    snapshot N (callback N bufferData k in_raw) =
      (snapshot N in_raw ++ (List.range k).map (fun i => (bufferData i).1)).drop k ∧
    (∀ i, i + k < N → callback N bufferData k in_raw i = in_raw (i + k)) ∧
    (∀ second : Nat → α,
      callback N (fun i => ((bufferData i).1, second i)) k in_raw =
        callback N bufferData k in_raw) := by
  refine ⟨by simp [snapshot], ?_, fun i hi => ?_, fun _ => rfl⟩
  · apply List.ext_getElem
    · simp [snapshot]
    · intro i h1 h2
      have hi : i < N := by simpa [snapshot] using h1
      simp only [snapshot, List.getElem_map, List.getElem_range, List.getElem_drop]
      rw [callback_apply N bufferData k in_raw i hi]
      by_cases hlt : i + k < N
      · rw [if_pos hlt, List.getElem_append_left (by simpa using (by omega : k + i < N))]
        simp [Nat.add_comm]
      · rw [if_neg hlt, List.getElem_append_right (by simpa using (by omega : N ≤ k + i))]
        simp only [List.getElem_map, List.getElem_range, List.length_map, List.length_range]
        congr 2; omega
  · rw [callback_apply N bufferData k in_raw i (by omega), if_pos hi]

/-- A run of `callback` on a buffer of four samples `0, 1, 2, 3` with the two
frames `(10, 0)` and `(11, 0)`. -/
theorem callback_example :
    snapshot 4 (callback 4 (fun i => (10 + i, 0)) 2 (fun i => i)) = [2, 3, 10, 11] := by
  decide

end CallbackProofs

/-! ## The bucket walk -/

section Walk

theorem bucketWalk_mem (N : Nat) (fuel : Nat) :
    ∀ n, 1 ≤ n → ∀ p ∈ bucketWalk N fuel n,
      p.2 = nextf p.1 ∧ n ≤ p.1 ∧ p.1 < N / 2 ∧ p.1 < p.2 := by
  induction fuel with
  | zero => intro n _ p hp; simp [bucketWalk] at hp
  | succ fuel ih =>
    intro n hn p hp
    have hnx : n < nextf n := by unfold nextf; omega
    rw [bucketWalk] at hp
    split_ifs at hp with hlt
    · rcases List.mem_cons.mp hp with rfl | hp
      · exact ⟨rfl, le_rfl, hlt, hnx⟩
      · obtain ⟨h1, h2, h3, h4⟩ := ih (nextf n) (by omega) p hp
        exact ⟨h1, by omega, h3, h4⟩
    · simp at hp

theorem bucketWalk_length_le (N : Nat) (fuel : Nat) :
    ∀ n, 1 ≤ n → (bucketWalk N fuel n).length ≤ N / 2 - n := by
  induction fuel with
  | zero => intro n _; simp [bucketWalk]
  | succ fuel ih =>
    intro n hn
    have hnx : n < nextf n := by unfold nextf; omega
    rw [bucketWalk]
    split_ifs with hlt
    · have := ih (nextf n) (by omega)
      simp only [List.length_cons]
      omega
    · simp

theorem bucketWalk_head (N : Nat) (fuel n : Nat) (hlt : n < N / 2) :
    (bucketWalk N (fuel + 1) n)[0]? = some (n, nextf n) := by
  rw [bucketWalk, if_pos hlt, List.getElem?_cons_zero]

theorem bucketWalk_chain (N : Nat) (fuel : Nat) :
    ∀ n, List.Chain' (fun a b : Nat × Nat => b.1 = a.2) (bucketWalk N fuel n) := by
  induction fuel with
  | zero => intro n; simp [bucketWalk]
  | succ fuel ih =>
    intro n
    rw [bucketWalk]
    split_ifs with hlt
    · rw [List.chain'_cons']
      refine ⟨fun y hy => ?_, ih (nextf n)⟩
      cases fuel with
      | zero => simp [bucketWalk] at hy
      | succ fuel =>
        rw [bucketWalk] at hy
        split_ifs at hy with h2
        · simp only [List.head?_cons, Option.mem_def, Option.some.injEq] at hy
          subst hy; rfl
        · simp at hy
    · exact List.chain'_nil

theorem bucketWalk_pairwise (N : Nat) (fuel : Nat) :
    ∀ n, 1 ≤ n → List.Pairwise (fun a b : Nat × Nat => a.2 ≤ b.1) (bucketWalk N fuel n) := by
  induction fuel with
  | zero => intro n _; simp [bucketWalk]
  | succ fuel ih =>
    intro n hn
    have hnx : n < nextf n := by unfold nextf; omega
    rw [bucketWalk]
    split_ifs with hlt
    · rw [List.pairwise_cons]
      exact ⟨fun p hp => (bucketWalk_mem N fuel (nextf n) (by omega) p hp).2.1,
        ih (nextf n) (by omega)⟩
    · exact List.Pairwise.nil

/-- With enough fuel the clipped spans of the walk from `n` cover exactly the
bins `n ≤ q < N / 2`. -/
theorem bucketWalk_cover (N : Nat) (fuel : Nat) :
    ∀ n, 1 ≤ n → N / 2 ≤ n + fuel → ∀ q,
      (∃ p ∈ bucketWalk N fuel n, p.1 ≤ q ∧ q < p.2 ∧ q < N / 2) ↔ (n ≤ q ∧ q < N / 2) := by
  induction fuel with
  | zero =>
    intro n _ hfuel q
    simp only [bucketWalk, List.not_mem_nil, false_and, exists_false, false_iff]
    omega
  | succ fuel ih =>
    intro n hn hfuel q
    have hnx : n < nextf n := by unfold nextf; omega
    rw [bucketWalk]
    split_ifs with hlt
    · have := ih (nextf n) (by omega) (by omega) q
      simp only [List.mem_cons, exists_eq_or_imp, this]
      omega
    · simp only [List.not_mem_nil, false_and, exists_false, false_iff]
      omega

theorem bucketWalk_length_pos (N : Nat) (hN : 4 ≤ N) :
    1 ≤ (bucketWalk N (N / 2) 1).length := by
  obtain ⟨fuel, hfuel⟩ : ∃ fuel, N / 2 = fuel + 1 := ⟨N / 2 - 1, by omega⟩
  have hhead : (bucketWalk N (N / 2) 1)[0]? = some (1, nextf 1) := by
    rw [hfuel, ← hfuel, hfuel, bucketWalk_head N fuel 1 (by omega)]
  by_contra h
  have : (bucketWalk N (N / 2) 1) = [] := List.length_eq_zero.mp (by omega)
  rw [this] at hhead
  simp at hhead

end Walk

/-! ## Theorems about the binning loop -/

section BinProofs

variable {K : Type} [LinearOrderedField K]

theorem step_eq : step = 53 / 50 := by norm_num [step]

theorem lowf_eq : lowf = ((1 : ℕ) : ℚ) := by norm_num [lowf]

/-- On an integral value `ceilf(f * step)` is `nextf`. -/
theorem ceil_step (n : ℕ) : ⌈(n : ℚ) * step⌉ = ((nextf n : ℕ) : ℤ) := by
  rw [Int.ceil_eq_iff, step_eq]
  have h1 : 50 * nextf n ≤ 53 * n + 49 := Nat.mul_div_le _ _
  have h2 : 53 * n + 49 < 50 * nextf n + 50 := by
    unfold nextf; omega
  have h1q : (50 * nextf n : ℚ) ≤ 53 * n + 49 := by exact_mod_cast h1
  have h2q : (53 * n + 49 : ℚ) < 50 * nextf n + 50 := by exact_mod_cast h2
  have h3 : 53 * n ≤ 50 * nextf n := by omega
  have h3q : (53 * n : ℚ) ≤ 50 * nextf n := by exact_mod_cast h3
  constructor
  · push_cast; linarith
  · push_cast; linarith

/-- The walk is strictly increasing from 1 on. -/
theorem lt_nextf (n : ℕ) (hn : 1 ≤ n) : n < nextf n := by
  unfold nextf; omega

theorem assignIfGreater_eq_max (a : K) (b : WithBot K) :
    ((assignIfGreater a b : K) : WithBot K) = max (a : WithBot K) b := by
  cases b with
  | bot =>
    show ((a : K) : WithBot K) = max (a : WithBot K) ⊥
    simp
  | coe b =>
    show (((if b > a then b else a : K)) : WithBot K) = max (a : WithBot K) (b : WithBot K)
    by_cases h : b > a
    · rw [if_pos h, max_eq_right (WithBot.coe_le_coe.mpr h.le)]
    · rw [if_neg h, max_eq_left (WithBot.coe_le_coe.mpr (not_lt.mp h))]

/-- The inner loop computes the maximum of the running value and of `amp`
over the remaining bins of the span. -/
theorem bucketLoop_eq (ln : K → K) (N : Nat) (out_raw : Nat → Cx K) (f1 : ℚ) (q : Nat) (a : K) :
    ((bucketLoop ln N out_raw f1 q a : K) : WithBot K) =
      max (a : WithBot K)
        ((Finset.Ico q (min ⌊f1⌋₊ (N / 2))).sup fun q => amp ln (out_raw q)) := by
  generalize hd : N / 2 - q = d
  induction d using Nat.strong_induction_on generalizing q a with
  | _ d ih =>
    rw [bucketLoop]
    by_cases hc : q < N / 2 ∧ q < ⌊f1⌋₊
    · rw [if_pos hc, ih (N / 2 - (q + 1)) (by omega) (q + 1) _ rfl, assignIfGreater_eq_max]
      have hq : q < min ⌊f1⌋₊ (N / 2) := lt_min hc.2 hc.1
      rw [← Nat.Ico_insert_succ_left hq, Finset.sup_insert, max_assoc]
    · rw [if_neg hc]
      have : Finset.Ico q (min ⌊f1⌋₊ (N / 2)) = ∅ := by
        apply Finset.Ico_eq_empty
        intro h
        exact hc ⟨lt_of_lt_of_le h (min_le_right _ _), lt_of_lt_of_le h (min_le_left _ _)⟩
      rw [this, Finset.sup_empty]
      simp

/-- The loop invariant of the binning loop.  Started on an integral value
`f = n ≥ 1` with enough fuel to reach `N / 2`, the loop is left: it visits
the spans of `bucketWalk`, stores one value per span in `out_log` after the
`m` cells already written, and `max_amp` is the running maximum. -/
theorem binLoop_spec (ln : K → K) (N : Nat) (out_raw : Nat → Cx K) (fuel : Nat) :
    ∀ (s : BinState K) (n : Nat), s.f = (n : ℚ) → 1 ≤ n → N / 2 ≤ n + fuel →
      ∃ r, binLoop ln N out_raw fuel s = some r ∧
        r.spans = s.spans ++ (bucketWalk N fuel n).map (fun p => ((p.1 : ℚ), (p.2 : ℚ))) ∧
        r.m = s.m + (bucketWalk N fuel n).length ∧
        (∀ i, i < s.m → r.out_log i = s.out_log i) ∧
        (∀ i p, (bucketWalk N fuel n)[i]? = some p →
          r.out_log (s.m + i) = bucketLoop ln N out_raw (p.2 : ℚ) p.1 0) ∧
        r.max_amp = ((bucketWalk N fuel n).map
            (fun p => bucketLoop ln N out_raw (p.2 : ℚ) p.1 0)).foldl
          (fun acc a => if acc < a then a else acc) s.max_amp ∧
        N / 2 ≤ ⌊r.f⌋₊ := by
  induction fuel with
  | zero =>
    intro s n hf hn hfuel
    refine ⟨s, ?_, by simp [bucketWalk], by simp [bucketWalk], fun _ _ => rfl,
      by simp [bucketWalk], by simp [bucketWalk], ?_⟩
    · rw [binLoop, if_neg]
      rw [hf, Nat.floor_natCast]; omega
    · rw [hf, Nat.floor_natCast]; omega
  | succ fuel ih =>
    intro s n hf hn hfuel
    by_cases hlt : n < N / 2
    · have hfl : ⌊s.f⌋₊ = n := by rw [hf, Nat.floor_natCast]
      have hce : ((⌈s.f * step⌉ : ℤ) : ℚ) = ((nextf n : ℕ) : ℚ) := by
        rw [hf, ceil_step]; norm_cast
      have hnx := lt_nextf n hn
      obtain ⟨r, c, hsp, hm, hold, hnew, hmax, hfin⟩ := ih
        { f := ((nextf n : ℕ) : ℚ)
          m := s.m + 1
          max_amp := if s.max_amp < bucketLoop ln N out_raw ((nextf n : ℕ) : ℚ) n 0
            then bucketLoop ln N out_raw ((nextf n : ℕ) : ℚ) n 0 else s.max_amp
          out_log := Function.update s.out_log s.m
            (bucketLoop ln N out_raw ((nextf n : ℕ) : ℚ) n 0)
          spans := s.spans ++ [(s.f, ((nextf n : ℕ) : ℚ))] }
        (nextf n) rfl (by omega) (by omega)
      have hw : bucketWalk N (fuel + 1) n = (n, nextf n) :: bucketWalk N fuel (nextf n) := by
        rw [bucketWalk, if_pos hlt]
      refine ⟨r, ?_, ?_, ?_, fun i hi => ?_, fun i p hp => ?_, ?_, hfin⟩
      · rw [binLoop, if_pos (by rw [hfl]; exact hlt)]
        simp only [hce, hfl]
        exact c
      · rw [hsp, hw, hf]; simp
      · rw [hm, hw]; simp; omega
      · rw [hold i (by simp; omega)]
        simp only []
        rw [Function.update_noteq (by omega)]
      · rw [hw] at hp
        cases i with
        | zero =>
          simp only [List.getElem?_cons_zero, Option.some.injEq] at hp
          subst hp
          rw [Nat.add_zero, hold s.m (by simp)]
          simp only []
          rw [Function.update_same]
        | succ i =>
          simp only [List.getElem?_cons_succ] at hp
          have := hnew i p hp
          simp only [] at this
          rw [show s.m + (i + 1) = s.m + 1 + i by omega]
          exact this
      · rw [hmax, hw]; simp
    · refine ⟨s, ?_, ?_, ?_, fun _ _ => rfl, ?_, ?_, ?_⟩
      · rw [binLoop, if_neg]
        rw [hf, Nat.floor_natCast]; omega
      · rw [bucketWalk, if_neg hlt]; simp
      · rw [bucketWalk, if_neg hlt]; simp
      · rw [bucketWalk, if_neg hlt]; simp
      · rw [bucketWalk, if_neg hlt]; simp
      · rw [hf, Nat.floor_natCast]; omega

/-- The running maximum `if (max_amp < a) max_amp = a;` folded over a list of
values: it bounds the seed and every value, and it is the seed or one of the
values. -/
theorem foldl_max_spec (vals : List K) :
    ∀ init : K,
      init ≤ vals.foldl (fun acc a => if acc < a then a else acc) init ∧
      (∀ x ∈ vals, x ≤ vals.foldl (fun acc a => if acc < a then a else acc) init) ∧
      (vals.foldl (fun acc a => if acc < a then a else acc) init = init ∨
        vals.foldl (fun acc a => if acc < a then a else acc) init ∈ vals) := by
  induction vals with
  | nil => intro init; simp
  | cons v vals ih =>
    intro init
    obtain ⟨h1, h2, h3⟩ := ih (if init < v then v else init)
    simp only [List.foldl_cons, List.mem_cons]
    have hi : init ≤ (if init < v then v else init) := by
      split_ifs with h
      · exact h.le
      · exact le_rfl
    have hv : v ≤ (if init < v then v else init) := by
      split_ifs with h
      · exact le_rfl
      · exact not_lt.mp h
    refine ⟨hi.trans h1, ?_, ?_⟩
    · rintro x (rfl | hx)
      · exact hv.trans h1
      · exact h2 x hx
    · rcases h3 with h3 | h3
      · rw [h3]
        split_ifs with h
        · exact Or.inr (Or.inl rfl)
        · exact Or.inl rfl
      · exact Or.inr (Or.inr h3)

/-- The binning of `plug_update` is left after at most `N / 2` iterations;
its result in terms of `bucketWalk`. -/
theorem logBin_spec (ln : K → K) (N : Nat) (out_raw : Nat → Cx K) (out_log : Nat → K) :
    ∃ r, logBin ln N out_raw out_log = some r ∧
      r.spans = (bucketWalk N (N / 2) 1).map (fun p => ((p.1 : ℚ), (p.2 : ℚ))) ∧
      r.m = (bucketWalk N (N / 2) 1).length ∧
      (∀ i p, (bucketWalk N (N / 2) 1)[i]? = some p →
        r.out_log i = bucketLoop ln N out_raw (p.2 : ℚ) p.1 0) ∧
      1 ≤ r.max_amp ∧
      (∀ i, i < r.m → r.out_log i ≤ r.max_amp) ∧
      (r.max_amp = 1 ∨ ∃ i, i < r.m ∧ r.max_amp = r.out_log i) ∧
      N / 2 ≤ ⌊r.f⌋₊ := by
  obtain ⟨r, c, hsp, hm, -, hnew, hmax, hfin⟩ := binLoop_spec ln N out_raw (N / 2)
    { f := lowf, m := 0, max_amp := 1, out_log := out_log, spans := [] } 1 lowf_eq le_rfl
    (by omega)
  simp only [List.nil_append, Nat.zero_add] at hsp hm hnew hmax
  obtain ⟨m1, m2, m3⟩ := foldl_max_spec
    ((bucketWalk N (N / 2) 1).map (fun p => bucketLoop ln N out_raw (p.2 : ℚ) p.1 0)) (1 : K)
  rw [← hmax] at m1 m2 m3
  refine ⟨r, c, hsp, hm, hnew, m1, fun i hi => ?_, ?_, hfin⟩
  · rw [hm] at hi
    have hp : (bucketWalk N (N / 2) 1)[i]? = some ((bucketWalk N (N / 2) 1)[i]) :=
      List.getElem?_eq_getElem hi
    rw [hnew i _ hp]
    exact m2 _ (List.mem_map.mpr ⟨_, List.getElem_mem hi, rfl⟩)
  · rcases m3 with h | h
    · exact Or.inl h
    · obtain ⟨p, hp, hpe⟩ := List.mem_map.mp h
      obtain ⟨i, hi, hie⟩ := List.getElem_of_mem hp
      refine Or.inr ⟨i, by rw [hm]; exact hi, ?_⟩
      rw [hnew i p (by rw [List.getElem?_eq_getElem hi, hie]), hpe]

theorem spanBins_cast (N a b : ℕ) :
    spanBins N ((a : ℚ), (b : ℚ)) = Finset.Ico a (min b (N / 2)) := by
  simp [spanBins]

/-- The inner loop never lowers the running value. -/
theorem le_bucketLoop (ln : K → K) (N : Nat) (out_raw : Nat → Cx K) (f1 : ℚ) (q : Nat) (a : K) :
    a ≤ bucketLoop ln N out_raw f1 q a := by
  rw [← WithBot.coe_le_coe, bucketLoop_eq]
  exact le_max_left _ _

/-- On a spectrum that is zero at the bins below `N/2` every `amp` read is
minus infinity and the inner loop leaves the running value alone. -/
theorem bucketLoop_zero_spectrum (ln : K → K) (N : Nat) (out_raw : Nat → Cx K)
    (hz : ∀ q, q < N / 2 → out_raw q = 0) (f1 : ℚ) (q : Nat) (a : K) :
    bucketLoop ln N out_raw f1 q a = a := by
  apply WithBot.coe_injective
  rw [bucketLoop_eq]
  have : ((Finset.Ico q (min ⌊f1⌋₊ (N / 2))).sup fun q => amp ln (out_raw q)) = ⊥ := by
    rw [Finset.sup_eq_bot_iff]
    intro b hb
    rw [Finset.mem_Ico, lt_min_iff] at hb
    rw [hz b hb.2.2]
    show logf ln ((0 : K) * 0 + 0 * 0) = ⊥
    simp [logf]
  rw [this]
  simp

/-- The first `m` iterations of a pointwise loop leave the cells from `m` on
untouched. -/
theorem foldl_update_range_aux {β : Type} (g : Nat → β → β) (m : Nat) (a : Nat → β) :
    ∀ i, m ≤ i → (List.range m).foldl (fun a i => Function.update a i (g i (a i))) a i = a i := by
  induction m with
  | zero => intro i _; simp
  | succ m ih =>
    intro i hi
    rw [List.range_succ, List.foldl_append]
    simp only [List.foldl_cons, List.foldl_nil]
    rw [Function.update_noteq (by omega), ih i (by omega)]

/-- A loop `for (i = 0; i < m; ++i) a[i] = g(i, a[i]);` changes the cells
below `m` pointwise and no other cell. -/
theorem foldl_update_range {β : Type} (g : Nat → β → β) (m : Nat) (a : Nat → β) (i : Nat) :
    (List.range m).foldl (fun a i => Function.update a i (g i (a i))) a i =
      if i < m then g i (a i) else a i := by
  induction m with
  | zero => simp
  | succ m ih =>
    rw [List.range_succ, List.foldl_append]
    simp only [List.foldl_cons, List.foldl_nil]
    by_cases h : i = m
    · subst h
      rw [Function.update_same, if_pos (Nat.lt_succ_self _)]
      rw [foldl_update_range_aux g i a i le_rfl]
    · rw [Function.update_noteq h, ih]
      by_cases h2 : i < m
      · rw [if_pos h2, if_pos (by omega)]
      · rw [if_neg h2, if_neg (by omega)]

end BinProofs


/-! ## Theorems about the buckets of `plug_update` -/

section BucketClaims

variable {K : Type} [LinearOrderedField K]

/-- Claim C6, as the code has it.  The binning loop is left, and for every
bucket `i` with span `sp = (f, f1)` the value stored in `out_log[i]` before
the normalisation is the maximum of `0` and of `amp(out_raw[q])` over the
bins `q` of the span (`f ≤ q < f1`, `q < N/2`): the accumulator starts at
`0.0f`, so a bucket whose bins all have a negative or minus-infinite `amp`
holds `0`. -/
theorem bucket_value_floored_max (ln : K → K) (N : Nat) (out_raw : Nat → Cx K)
    (out_log : Nat → K) :
    ∃ r, logBin ln N out_raw out_log = some r ∧ r.spans.length = r.m ∧
      ∀ i sp, r.spans[i]? = some sp →
        ((r.out_log i : K) : WithBot K) =
          max 0 ((spanBins N sp).sup fun q => amp ln (out_raw q)) := by
  obtain ⟨r, c, hsp, hm, hnew, -⟩ := logBin_spec ln N out_raw out_log
  refine ⟨r, c, by rw [hsp, hm, List.length_map], fun i sp hi => ?_⟩
  rw [hsp, List.getElem?_map, Option.map_eq_some'] at hi
  obtain ⟨p, hp, rfl⟩ := hi
  rw [hnew i p hp, bucketLoop_eq, spanBins_cast, Nat.floor_natCast, WithBot.coe_zero]

/-- Claim C6 fails as stated.  With the program's `N`, the exact logarithm
and the spectrum that is `1/2` everywhere, the first bucket has the span
`(1, 2)`, which holds the bin `1`, and the value stored for it is not the
maximum of `amp` over the span (that maximum is `ln (1/4) < 0`, the value
stored is `0`). -/
theorem bucket_value_not_span_max :
    ∃ r, logBin Real.log N (fun _ => (⟨1 / 2, 0⟩ : Cx ℝ)) (fun _ => 0) = some r ∧
      r.spans[0]? = some ((1 : ℚ), (2 : ℚ)) ∧
      (spanBins N ((1 : ℚ), (2 : ℚ))).Nonempty ∧
      r.out_log 0 = 0 ∧
      ((r.out_log 0 : ℝ) : WithBot ℝ) ≠
        (spanBins N ((1 : ℚ), (2 : ℚ))).sup
          fun q => amp Real.log ((fun _ => (⟨1 / 2, 0⟩ : Cx ℝ)) q) := by
  obtain ⟨r, c, hsp, hm, hnew, -⟩ :=
    logBin_spec Real.log N (fun _ => (⟨1 / 2, 0⟩ : Cx ℝ)) (fun _ => 0)
  have hN : N / 2 = 4095 + 1 := by decide
  have hhead : (bucketWalk N (N / 2) 1)[0]? = some (1, 2) := by
    rw [hN, ← hN, hN, bucketWalk_head N 4095 1 (by rw [hN]; omega)]
    rfl
  have hbins : spanBins N ((1 : ℚ), (2 : ℚ)) = {1} := by
    have := spanBins_cast N 1 2
    simp only [Nat.cast_one, Nat.cast_ofNat] at this
    rw [this, hN]
    rfl
  have hamp : amp Real.log (⟨1 / 2, 0⟩ : Cx ℝ) = ((Real.log (1 / 4) : ℝ) : WithBot ℝ) := by
    show logf Real.log ((1 / 2 : ℝ) * (1 / 2) + 0 * 0) = _
    rw [show (1 / 2 : ℝ) * (1 / 2) + 0 * 0 = 1 / 4 by norm_num, logf, if_neg (by norm_num)]
  have hneg : Real.log (1 / 4) < 0 := Real.log_neg (by norm_num) (by norm_num)
  have hval : r.out_log 0 = 0 := by
    apply WithBot.coe_injective
    rw [hnew 0 (1, 2) hhead, bucketLoop_eq]
    have := spanBins_cast N 1 2
    simp only [Nat.cast_one, Nat.cast_ofNat] at this
    simp only [Nat.cast_ofNat, Nat.floor_ofNat]
    rw [hN]
    rw [show Finset.Ico 1 (min 2 (4095 + 1)) = {1} from rfl, Finset.sup_singleton, hamp]
    exact max_eq_left (WithBot.coe_le_coe.mpr hneg.le)
  refine ⟨r, c, ?_, ?_, hval, ?_⟩
  · rw [hsp, List.getElem?_map, hhead]
    simp
  · rw [hbins]; exact Finset.singleton_nonempty 1
  · rw [hbins, Finset.sup_singleton, hamp, hval]
    intro h
    have := WithBot.coe_injective h
    linarith

/-- Claim C7.  The bucket structure is data-independent: for any two spectra
(and any two logarithms and any previous contents of `out_log`) the binning
loop is left in both runs, with the same bucket count `m` and the same
sequence of bucket boundaries `(f, ceil(f * step))`. -/
theorem bucket_structure_data_independent (ln ln' : K → K) (N : Nat)
    (out_raw out_raw' : Nat → Cx K) (out_log out_log' : Nat → K) :
    ∃ r r', logBin ln N out_raw out_log = some r ∧
      logBin ln' N out_raw' out_log' = some r' ∧
      r.m = r'.m ∧ r.spans = r'.spans ∧ r.spans.length = r.m ∧
      ∀ sp ∈ r.spans, sp.2 = ((⌈sp.1 * step⌉ : ℤ) : ℚ) := by
  obtain ⟨r, c, hsp, hm, -⟩ := logBin_spec ln N out_raw out_log
  obtain ⟨r', c', hsp', hm', -⟩ := logBin_spec ln' N out_raw' out_log'
  refine ⟨r, r', c, c', by rw [hm, hm'], by rw [hsp, hsp'],
    by rw [hsp, hm, List.length_map], fun sp hmem => ?_⟩
  rw [hsp] at hmem
  obtain ⟨p, hp, rfl⟩ := List.mem_map.mp hmem
  have := (bucketWalk_mem N (N / 2) 1 le_rfl p hp).1
  simp only []
  rw [ceil_step, this]
  norm_cast

/-- Claim C10.  For every `N ≥ 4` the bucket walk `f → ceil(f * step)` is
strictly increasing and the loop is left with `f ≥ N/2`; every bucket span
`[f, min(ceil(f * step), N/2))` is non-empty, consecutive spans are
contiguous, the spans are pairwise disjoint and cover exactly the bins
`1 .. N/2 - 1` (bin `0` is in no bucket); the bucket count satisfies
`1 ≤ m ≤ N/2 - 1`, so every index written in `out_log` and every bin read
in `out_raw` is below `N`. -/
theorem bucket_walk_covers_bins (ln : K → K) (N : Nat) (hN : 4 ≤ N) (out_raw : Nat → Cx K)
    (out_log : Nat → K) :
    ∃ r, logBin ln N out_raw out_log = some r ∧
      N / 2 ≤ ⌊r.f⌋₊ ∧
      r.spans.length = r.m ∧ 1 ≤ r.m ∧ r.m ≤ N / 2 - 1 ∧ r.m < N ∧
      r.spans[0]? = some (lowf, ((⌈lowf * step⌉ : ℤ) : ℚ)) ∧
      (∀ sp ∈ r.spans, sp.2 = ((⌈sp.1 * step⌉ : ℤ) : ℚ) ∧ sp.1 < sp.2 ∧
        (spanBins N sp).Nonempty ∧ ∀ q ∈ spanBins N sp, q < N) ∧
      List.Chain' (fun a b : ℚ × ℚ => b.1 = a.2) r.spans ∧
      List.Pairwise (fun a b : ℚ × ℚ => Disjoint (spanBins N a) (spanBins N b)) r.spans ∧
      (∀ q, (∃ sp ∈ r.spans, q ∈ spanBins N sp) ↔ (1 ≤ q ∧ q < N / 2)) := by
  obtain ⟨r, c, hsp, hm, -, -, -, -, hfin⟩ := logBin_spec ln N out_raw out_log
  have hlen := bucketWalk_length_le N (N / 2) 1 le_rfl
  obtain ⟨fuel, hfuel⟩ : ∃ fuel, N / 2 = fuel + 1 := ⟨N / 2 - 1, by omega⟩
  have hhead : (bucketWalk N (N / 2) 1)[0]? = some (1, nextf 1) := by
    rw [hfuel, ← hfuel, hfuel, bucketWalk_head N fuel 1 (by omega)]
  have hpos : 1 ≤ (bucketWalk N (N / 2) 1).length := by
    by_contra h
    have : (bucketWalk N (N / 2) 1) = [] := List.length_eq_zero.mp (by omega)
    rw [this] at hhead
    simp at hhead
  refine ⟨r, c, hfin, by rw [hsp, hm, List.length_map], by omega, by omega, by omega, ?_,
    fun sp hmem => ?_, ?_, ?_, fun q => ?_⟩
  · rw [hsp, List.getElem?_map, hhead, lowf_eq, ceil_step]
    simp
  · rw [hsp] at hmem
    obtain ⟨p, hp, rfl⟩ := List.mem_map.mp hmem
    obtain ⟨h1, h2, h3, h4⟩ := bucketWalk_mem N (N / 2) 1 le_rfl p hp
    refine ⟨?_, by show ((p.1 : ℕ) : ℚ) < ((p.2 : ℕ) : ℚ); exact_mod_cast h4, ?_,
      fun q hq => ?_⟩
    · simp only []
      rw [ceil_step, h1]
      norm_cast
    · rw [spanBins_cast]
      exact ⟨p.1, Finset.mem_Ico.mpr ⟨le_rfl, lt_min h4 h3⟩⟩
    · rw [spanBins_cast, Finset.mem_Ico] at hq
      have := lt_of_lt_of_le hq.2 (min_le_right _ _)
      omega
  · rw [hsp, List.chain'_map]
    refine (bucketWalk_chain N (N / 2) 1).imp fun {a b} h => ?_
    simp only []
    exact_mod_cast h
  · rw [hsp, List.pairwise_map]
    refine (bucketWalk_pairwise N (N / 2) 1 le_rfl).imp fun {a b} h => ?_
    rw [spanBins_cast, spanBins_cast, Finset.disjoint_left]
    intro q hq1 hq2
    rw [Finset.mem_Ico] at hq1 hq2
    have := lt_of_lt_of_le hq1.2 (min_le_left _ _)
    omega
  · rw [← bucketWalk_cover N (N / 2) 1 le_rfl (by omega) q, hsp]
    constructor
    · rintro ⟨sp, hmem, hq⟩
      obtain ⟨p, hp, rfl⟩ := List.mem_map.mp hmem
      rw [spanBins_cast, Finset.mem_Ico, lt_min_iff] at hq
      exact ⟨p, hp, hq.1, hq.2.1, hq.2.2⟩
    · rintro ⟨p, hp, h1, h2, h3⟩
      refine ⟨_, List.mem_map.mpr ⟨p, hp, rfl⟩, ?_⟩
      rw [spanBins_cast, Finset.mem_Ico, lt_min_iff]
      exact ⟨h1, h2, h3⟩

/-- Witness of `bucket_walk_covers_bins` at the program's `N = 1 << 13`, for
an all-zero spectrum over the rationals. -/
theorem bucket_walk_covers_bins_witness :
    4 ≤ N ∧
    ∃ r, logBin (fun x : ℚ => x) N (fun _ => 0) (fun _ => 0) = some r ∧
      N / 2 ≤ ⌊r.f⌋₊ ∧
      r.spans.length = r.m ∧ 1 ≤ r.m ∧ r.m ≤ N / 2 - 1 ∧ r.m < N ∧
      r.spans[0]? = some (lowf, ((⌈lowf * step⌉ : ℤ) : ℚ)) ∧
      (∀ sp ∈ r.spans, sp.2 = ((⌈sp.1 * step⌉ : ℤ) : ℚ) ∧ sp.1 < sp.2 ∧
        (spanBins N sp).Nonempty ∧ ∀ q ∈ spanBins N sp, q < N) ∧
      List.Chain' (fun a b : ℚ × ℚ => b.1 = a.2) r.spans ∧
      List.Pairwise (fun a b : ℚ × ℚ => Disjoint (spanBins N a) (spanBins N b)) r.spans ∧
      (∀ q, (∃ sp ∈ r.spans, q ∈ spanBins N sp) ↔ (1 ≤ q ∧ q < N / 2)) :=
  ⟨by decide, bucket_walk_covers_bins (fun x : ℚ => x) N (by decide) (fun _ => 0) (fun _ => 0)⟩

theorem normalize_apply (m : Nat) (max_amp : K) (out_log : Nat → K) (i : Nat) :
    normalize m max_amp out_log i = if i < m then out_log i / max_amp else out_log i :=
  foldl_update_range (fun _ x => x / max_amp) m out_log i

theorem smooth_apply (m : Nat) (dt : K) (out_log out_smooth : Nat → K) (i : Nat) :
    smooth m dt out_log out_smooth i =
      if i < m then out_smooth i + (out_log i - out_smooth i) * smoothness * dt
      else out_smooth i :=
  foldl_update_range (fun i x => x + (out_log i - x) * smoothness * dt) m out_smooth i

/-- Every bucket value is non-negative: the accumulator of a bucket starts
at `0.0f` and is only raised. -/
theorem logBin_nonneg (ln : K → K) (N : Nat) (out_raw : Nat → Cx K) (out_log : Nat → K)
    (r : BinState K) (hr : logBin ln N out_raw out_log = some r) (i : Nat) (hi : i < r.m) :
    0 ≤ r.out_log i := by
  obtain ⟨r', c, -, hm, hnew, -⟩ := logBin_spec ln N out_raw out_log
  rw [hr] at c
  obtain rfl : r = r' := Option.some.inj c
  rw [hm] at hi
  rw [hnew i _ (List.getElem?_eq_getElem hi)]
  exact le_bucketLoop _ _ _ _ _ _

/-- Claim C9.  For every spectrum (the `amp` values being finite or minus
infinity), the divisor `max_amp` of the normalisation loop is `≥ 1`, and
after the normalisation every `out_log[i]`, `i < m`, lies in `[0, 1]`. -/
theorem normalized_in_unit_range (ln : K → K) (N : Nat) (out_raw : Nat → Cx K)
    (out_log : Nat → K) :
    ∃ r, logBin ln N out_raw out_log = some r ∧ 1 ≤ r.max_amp ∧
      ∀ i, i < r.m →
        0 ≤ normalize r.m r.max_amp r.out_log i ∧ normalize r.m r.max_amp r.out_log i ≤ 1 := by
  obtain ⟨r, c, -, -, -, h1, hle, -⟩ := logBin_spec ln N out_raw out_log
  refine ⟨r, c, h1, fun i hi => ?_⟩
  have hpos : 0 < r.max_amp := lt_of_lt_of_le one_pos h1
  rw [normalize_apply, if_pos hi]
  exact ⟨div_nonneg (logBin_nonneg ln N out_raw out_log r c i hi) hpos.le,
    (div_le_one hpos).mpr (hle i hi)⟩

/-- Claim C4, as the code has it.  For every spectrum whose `amp` values are
finite or minus infinity (the values of `amp` in `WithBot K`; no overflow of
`a*a + b*b`), the normalisation divides by
`max_amp = max(1, largest bucket value)`, which is `≥ 1` and never `≤ 0`; no
normalised value exceeds `1`.  When some bucket value is `≥ 1`, the maximum
of the normalised curve is exactly `1`.  When every bucket value is `≤ 1`,
`max_amp` is the seed `1.0` and the curve is left unchanged. -/
theorem normalized_max (ln : K → K) (N : Nat) (out_raw : Nat → Cx K) (out_log : Nat → K) :
    ∃ r, logBin ln N out_raw out_log = some r ∧ 1 ≤ r.max_amp ∧
      (∀ i, i < r.m → normalize r.m r.max_amp r.out_log i ≤ 1) ∧
      ((∃ i, i < r.m ∧ 1 ≤ r.out_log i) →
        ∃ i, i < r.m ∧ normalize r.m r.max_amp r.out_log i = 1) ∧
      ((∀ i, i < r.m → r.out_log i ≤ 1) →
        r.max_amp = 1 ∧ ∀ i, normalize r.m r.max_amp r.out_log i = r.out_log i) := by
  obtain ⟨r, c, -, -, -, h1, hle, hor, -⟩ := logBin_spec ln N out_raw out_log
  have hpos : 0 < r.max_amp := lt_of_lt_of_le one_pos h1
  refine ⟨r, c, h1, fun i hi => ?_, ?_, fun hall => ?_⟩
  · rw [normalize_apply, if_pos hi]
    exact (div_le_one hpos).mpr (hle i hi)
  · rintro ⟨i, hi, hbig⟩
    rcases hor with h | ⟨i', hi', h⟩
    · refine ⟨i, hi, ?_⟩
      have : r.out_log i = 1 := le_antisymm (h ▸ hle i hi) hbig
      rw [normalize_apply, if_pos hi, this, h, div_one]
    · refine ⟨i', hi', ?_⟩
      rw [normalize_apply, if_pos hi', ← h, div_self hpos.ne']
  · have hmax : r.max_amp = 1 := by
      rcases hor with h | ⟨i', hi', h⟩
      · exact h
      · exact le_antisymm (h ▸ hall i' hi') h1
    refine ⟨hmax, fun i => ?_⟩
    rw [normalize_apply, hmax, div_one, ite_self]

/-- On a spectrum that is zero at the bins below `N/2` every bucket value is
`0` and `max_amp` keeps its seed `1`. -/
theorem logBin_zero_spectrum (ln : K → K) (N : Nat) (out_raw : Nat → Cx K)
    (hz : ∀ q, q < N / 2 → out_raw q = 0) (out_log : Nat → K) :
    ∃ r, logBin ln N out_raw out_log = some r ∧ r.max_amp = 1 ∧
      ∀ i, i < r.m → r.out_log i = 0 := by
  obtain ⟨r, c, -, hm, hnew, h1, -, hor, -⟩ := logBin_spec ln N out_raw out_log
  have hval : ∀ i, i < r.m → r.out_log i = 0 := by
    intro i hi
    rw [hm] at hi
    rw [hnew i _ (List.getElem?_eq_getElem hi), bucketLoop_zero_spectrum ln N out_raw hz]
  refine ⟨r, c, ?_, hval⟩
  rcases hor with h | ⟨i, hi, h⟩
  · exact h
  · rw [hval i hi] at h
    rw [h] at h1
    exact absurd h1 (by norm_num)

/-- Claim C4 fails as stated.  With the program's `N`, the exact logarithm
and the all-zero spectrum, `max_amp` is `1 > 0`, there are buckets, and
every normalised value is `0`: the maximum of the normalised curve is `0`,
not `1`. -/
theorem normalized_max_not_one :
    ∃ r, logBin Real.log N (fun _ => (0 : Cx ℝ)) (fun _ => 0) = some r ∧
      0 < r.max_amp ∧ 0 < r.m ∧
      ∀ i, i < r.m → normalize r.m r.max_amp r.out_log i = 0 ∧
        normalize r.m r.max_amp r.out_log i ≠ 1 := by
  obtain ⟨r, c, hmax, hval⟩ :=
    logBin_zero_spectrum Real.log N (fun _ => (0 : Cx ℝ)) (fun _ _ => rfl) (fun _ => 0)
  obtain ⟨r', c', -, hm, -⟩ := logBin_spec Real.log N (fun _ => (0 : Cx ℝ)) (fun _ => 0)
  rw [c] at c'
  obtain rfl : r = r' := Option.some.inj c'
  have hpos := bucketWalk_length_pos N (by decide)
  refine ⟨r, c, by rw [hmax]; exact one_pos, by omega, fun i hi => ?_⟩
  have : normalize r.m r.max_amp r.out_log i = 0 := by
    rw [normalize_apply, if_pos hi, hval i hi, zero_div]
  exact ⟨this, by rw [this]; exact zero_ne_one⟩

end BucketClaims

/-! ## Theorems about the smoother and the whole pipeline -/

section PipelineClaims

variable {K : Type} [LinearOrderedField K]

theorem smoothFrames_head (m : Nat) (out_log : Nat → K) (dts : List K) (out_smooth : Nat → K) :
    (smoothFrames m out_log dts out_smooth).head? = some out_smooth := by
  cases dts <;> rfl

/-- The smoother towards the target `1`, from any accumulator `≤ 1`, with
frame times `0 < dt ≤ 1/8`: the accumulator values of cell `i` never
decrease and never exceed `1`. -/
theorem smoothFrames_mono (m : Nat) (i : Nat) (dts : List K) :
    ∀ out_smooth : Nat → K, out_smooth i ≤ 1 → (∀ dt ∈ dts, 0 < dt ∧ dt ≤ 1 / 8) →
      List.Chain' (fun x y : K => x ≤ y)
        ((smoothFrames m (fun _ => 1) dts out_smooth).map fun a => a i) ∧
      ∀ x ∈ (smoothFrames m (fun _ => 1) dts out_smooth).map (fun a => a i), x ≤ 1 := by
  induction dts with
  | nil =>
    intro out_smooth h1 _
    simp [smoothFrames, h1]
  | cons dt dts ih =>
    intro out_smooth h1 hdt
    obtain ⟨hpos, hle⟩ := hdt dt (List.mem_cons_self _ _)
    have hstep : out_smooth i ≤ smooth m dt (fun _ => 1) out_smooth i ∧
        smooth m dt (fun _ => 1) out_smooth i ≤ 1 := by
      rw [smooth_apply]
      split_ifs with hi
      · unfold smoothness
        constructor
        · nlinarith [mul_nonneg (sub_nonneg.mpr h1) hpos.le]
        · nlinarith [mul_nonneg (sub_nonneg.mpr h1) (sub_nonneg.mpr hle)]
      · exact ⟨le_rfl, h1⟩
    obtain ⟨c, b⟩ := ih (smooth m dt (fun _ => 1) out_smooth) hstep.2
      (fun d hd => hdt d (List.mem_cons_of_mem _ hd))
    simp only [smoothFrames, List.map_cons]
    refine ⟨?_, ?_⟩
    · rw [List.chain'_cons']
      refine ⟨fun y hy => ?_, c⟩
      rw [List.head?_map, smoothFrames_head] at hy
      simp only [Option.map_some', Option.mem_def, Option.some.injEq] at hy
      rw [← hy]
      exact hstep.1
    · intro x hx
      rcases List.mem_cons.mp hx with rfl | hx
      · exact h1
      · exact b x hx

/-- Claim C5, as the code has it.  For every sequence of frame times with
`0 < dt ≤ 1/8` (that is `smoothness * dt ≤ 1`), starting from accumulators
`0` and the constant target curve `1.0`, the accumulator values of every
cell form a non-decreasing sequence that never exceeds `1.0`. -/
theorem smoother_monotone_bounded (m : Nat) (dts : List K)
    (hdt : ∀ dt ∈ dts, 0 < dt ∧ dt ≤ 1 / 8) (i : Nat) :
    List.Chain' (fun x y : K => x ≤ y)
      ((smoothFrames m (fun _ => 1) dts (fun _ => 0)).map fun a => a i) ∧
    ∀ x ∈ (smoothFrames m (fun _ => 1) dts (fun _ => 0)).map (fun a => a i), x ≤ 1 :=
  smoothFrames_mono m i dts (fun _ => 0) zero_le_one hdt

/-- Witness of `smoother_monotone_bounded`: two buckets, the frame times
`1/16` and `1/8`, cell `0`. -/
theorem smoother_monotone_bounded_witness :
    (∀ dt ∈ [(1 / 16 : ℚ), 1 / 8], 0 < dt ∧ dt ≤ 1 / 8) ∧
    List.Chain' (fun x y : ℚ => x ≤ y)
      ((smoothFrames 2 (fun _ => 1) [(1 / 16 : ℚ), 1 / 8] (fun _ => 0)).map fun a => a 0) ∧
    ∀ x ∈ (smoothFrames 2 (fun _ => 1) [(1 / 16 : ℚ), 1 / 8] (fun _ => 0)).map (fun a => a 0),
      x ≤ 1 :=
  have h : ∀ dt ∈ [(1 / 16 : ℚ), 1 / 8], 0 < dt ∧ dt ≤ 1 / 8 := by
    intro dt hdt
    simp only [List.mem_cons, List.mem_singleton, List.not_mem_nil, or_false] at hdt
    rcases hdt with rfl | rfl <;> norm_num
  ⟨h, smoother_monotone_bounded 2 [(1 / 16 : ℚ), 1 / 8] h 0⟩

/-- Claim C5 fails as stated.  With the positive frame time `1/4` twice, the
accumulator of cell `0` takes the values `0, 2, 0`: it exceeds `1.0` after
the first frame and decreases in the second. -/
theorem smoother_overshoots :
    (∀ dt ∈ [(1 / 4 : ℚ), 1 / 4], 0 < dt) ∧
    (smoothFrames 1 (fun _ => 1) [(1 / 4 : ℚ), 1 / 4] (fun _ => 0)).map (fun a => a 0)
      = [0, 2, 0] := by
  refine ⟨by intro dt hdt; simp at hdt; rw [hdt]; norm_num, ?_⟩
  simp only [smoothFrames, List.map_cons, List.map_nil, smooth_apply, smoothness]
  norm_num

theorem hannWindow_apply (cosf : K → K) (PI : K) (N : Nat) (in_raw in_win : Nat → K)
    (i : Nat) :
    hannWindow cosf PI N in_raw in_win i =
      if i < N then
        in_raw i * (0.5 - 0.5 * cosf (2 * PI * ((i : K) / ((N - 1 : Nat) : K))))
      else in_win i :=
  foldl_update_range
    (fun i _ => in_raw i * (0.5 - 0.5 * cosf (2 * PI * ((i : K) / ((N - 1 : Nat) : K)))))
    N in_win i

/-- Claim C8.  End-to-end silence: with `N` a power of two, an all-zero
`in_raw` buffer and zero smoother accumulators, for every frame time `dt`
(in particular every `dt ≥ 0`) one pass of the analysis of `plug_update`
returns; the spectrum is zero, and the `m` values of the normalised curve
`out_log` and of the smoothed curve `out_smooth` are all `0`, hence `≤ 0`
and finite: the minus infinity that `amp` gives on a zero coefficient never
passes the comparison `b > a` and never reaches a curve. -/
theorem silence_end_to_end (cexp : Cx K → Cx K) (cosf ln : K → K) (PI : K) (N k : Nat)
    (hN : N = 2 ^ k) (dt : K) (g : Globals K) (hraw : ∀ i, i < N → g.in_raw i = 0)
    (hsm : ∀ i, i < N → g.out_smooth i = 0) :
    ∃ g', plug_update cexp cosf ln PI N dt g = some g' ∧
      (∀ q, q < N → g'.out_raw q = 0) ∧
      ∀ i, i < g'.m →
        (g'.out_log i = 0 ∧ g'.out_log i ≤ 0) ∧ (g'.out_smooth i = 0 ∧ g'.out_smooth i ≤ 0) := by
  subst hN
  have hwin : ∀ t, t < 2 ^ k →
      hannWindow cosf PI (2 ^ k) g.in_raw g.in_win (0 + t * 1) = 0 := by
    intro t ht
    rw [Nat.zero_add, Nat.mul_one, hannWindow_apply, if_pos ht, hraw t ht, zero_mul]
  obtain ⟨out_raw, c1, hz⟩ := fft_zero cexp PI (hannWindow cosf PI (2 ^ k) g.in_raw g.in_win) k
    0 1 g.out_raw 0 hwin
  have hz' : ∀ q, q < 2 ^ k → out_raw q = 0 := fun q hq => by
    have := hz q hq
    rwa [Nat.zero_add] at this
  obtain ⟨r, c2, hmax, hval⟩ := logBin_zero_spectrum ln (2 ^ k) out_raw
    (fun q hq => hz' q (lt_of_lt_of_le hq (Nat.div_le_self _ _))) g.out_log
  obtain ⟨r', c2', -, hm, -⟩ := logBin_spec ln (2 ^ k) out_raw g.out_log
  rw [c2] at c2'
  obtain rfl : r = r' := Option.some.inj c2'
  have hlen := bucketWalk_length_le (2 ^ k) (2 ^ k / 2) 1 le_rfl
  have hmN : r.m ≤ 2 ^ k := by
    rw [hm]
    exact le_trans hlen (le_trans (Nat.sub_le _ _) (Nat.div_le_self _ _))
  refine ⟨{ in_raw := g.in_raw, in_win := hannWindow cosf PI (2 ^ k) g.in_raw g.in_win,
             out_raw := out_raw, out_log := normalize r.m r.max_amp r.out_log,
             out_smooth := smooth r.m dt (normalize r.m r.max_amp r.out_log) g.out_smooth,
             m := r.m },
    by simp only [plug_update, c1, c2], hz', fun i hi => ?_⟩
  have hi' : i < r.m := hi
  have hlog : normalize r.m r.max_amp r.out_log i = 0 := by
    rw [normalize_apply, if_pos hi', hval i hi', zero_div]
  have hsmooth : smooth r.m dt (normalize r.m r.max_amp r.out_log) g.out_smooth i = 0 := by
    rw [smooth_apply, if_pos hi', hlog, hsm i (lt_of_lt_of_le hi' hmN)]
    simp
  exact ⟨⟨hlog, hlog.le⟩, ⟨hsmooth, hsmooth.le⟩⟩

/-- Witness of `silence_end_to_end` at the program's `N = 1 << 13 = 2^13`,
over the rationals, with frame time `1/60` and all arrays zero. -/
theorem silence_end_to_end_witness :
    N = 2 ^ 13 ∧
    (∀ i, i < N → (fun _ : ℕ => (0 : ℚ)) i = 0) ∧
    ∃ g', plug_update (fun z : Cx ℚ => z) (fun x => x) (fun x => x) (355 / 113) N (1 / 60)
        ⟨fun _ => 0, fun _ => 0, fun _ => 0, fun _ => 0, fun _ => 0, 0⟩ = some g' ∧
      (∀ q, q < N → g'.out_raw q = 0) ∧
      ∀ i, i < g'.m →
        (g'.out_log i = 0 ∧ g'.out_log i ≤ 0) ∧ (g'.out_smooth i = 0 ∧ g'.out_smooth i ≤ 0) :=
  ⟨by decide, fun _ _ => rfl,
    silence_end_to_end (fun z : Cx ℚ => z) (fun x => x) (fun x => x) (355 / 113) N 13
      (by decide) (1 / 60) ⟨fun _ => 0, fun _ => 0, fun _ => 0, fun _ => 0, fun _ => 0, 0⟩
      (fun _ _ => rfl) (fun _ _ => rfl)⟩

end PipelineClaims

end Musializer
